import Mathlib

/-!
Shallow embedding of the `get-github-permalink` VS Code extension
(`src/extension.ts` together with `util.ts`).  The pure core — remote-URL
parsing and permalink resolution — is translated function by function.
The host collaborators (VS Code URIs, the Git extension state, Node's
`path` module and the WHATWG `URL` class) are modelled as explicit data,
following the shapes the source consumes.  TypeScript `undefined`/`null`
become `Option`, thrown `GetPermalinkError`s become `Except.error`.
-/

namespace GetPermalink

/-- Models `vscode.Uri`: the components the source reads (`scheme`,
`authority`, `path`).  `toString` models the serialization, used only
inside the `No matching repository` error message. -/
structure Uri where
  scheme : String
  authority : String
  path : String
deriving DecidableEq, Repr

def Uri.toString (u : Uri) : String :=
  u.scheme ++ "://" ++ u.authority ++ u.path

/-- Models `GetPermalinkError` from `util.ts`: an error carrying a message. -/
structure GetPermalinkError where
  message : String
deriving DecidableEq, Repr

/-- Models `failIfUndefined` from `util.ts`; throwing becomes `Except.error`. -/
def failIfUndefined {α : Type} (value : Option α) (failureMessage : String) :
    Except GetPermalinkError α :=
  match value with
  | none => Except.error ⟨failureMessage⟩
  | some v => Except.ok v

/-- Models `failIfNull` from `util.ts` (TypeScript `null`, like `undefined`,
is modelled by `Option.none`). -/
def failIfNull {α : Type} (value : Option α) (failureMessage : String) :
    Except GetPermalinkError α :=
  match value with
  | none => Except.error ⟨failureMessage⟩
  | some v => Except.ok v

/-- The `RepositoryName` interface of `extension.ts`. -/
structure RepositoryName where
  organization : String
  repository : String
deriving DecidableEq, Repr

/-- Characters the JavaScript regex metacharacter `.` does not match (no
`s` flag is set on either source regex): the ECMAScript line terminators. -/
def isLineTerm (c : Char) : Bool :=
  c == '\n' || c == '\r' || c == '\u2028' || c == '\u2029'

/-- Match a run of literal regex characters at the head of the input,
returning the remaining input. -/
def stripLit : List Char → List Char → Option (List Char)
  | [], cs => some cs
  | _ :: _, [] => none
  | p :: ps, c :: cs => if c = p then stripLit ps cs else none

/-- Match the regex metacharacter `.` (any one character except a line
terminator). -/
def stripDot : List Char → Option (List Char)
  | [] => none
  | c :: cs => if isLineTerm c then none else some cs

/-- Does `(?:.git)` match the entire remaining input?  One `.`-wildcard
character, then literal `git`.  Note the unescaped dot in the source
regexes: the first character of the suffix may be anything. -/
def dotGitEnd : List Char → Bool
  | [] => false
  | c :: rest => !isLineTerm c && rest == ['g', 'i', 't']

/-- Does `(?:.git)?$` match the entire remaining input?  The greedy
optional group first tries `(?:.git)`, then tries skipping; either way the
`$` anchor must land exactly on the end of the string. -/
def tailOpt (l : List Char) : Bool :=
  dotGitEnd l || l == []

/-- The lazy group `(?<repository>.+?)` followed by `(?:.git)?$`: a lazy
quantifier prefers the shortest match, so consume one `.`-matchable
character at a time and stop as soon as `(?:.git)?$` matches the rest.
Returns the characters captured by the `repository` group. -/
def lazyRepoGo : List Char → List Char → Option (List Char)
  | _, [] => none
  | acc, c :: rest =>
    if isLineTerm c then none
    else if tailOpt rest then some (acc ++ [c])
    else lazyRepoGo (acc ++ [c]) rest

/-- The shared tail `(?<organization>[^/]+)/(?<repository>.+?)(?:.git)?$`
of both source regexes.  The greedy `[^/]+` necessarily ends at the first
`/` of the input: backtracking it shorter can never make the following
literal `/` match, since every character given back is not `/`. -/
def matchOrgRepo (cs : List Char) : Option RepositoryName :=
  match cs.takeWhile (fun c => c != '/'), cs.dropWhile (fun c => c != '/') with
  | [], _ => none
  | _ :: _, [] => none
  | org1 :: orgRest, _ :: rest =>
    (lazyRepoGo [] rest).map (fun repo => ⟨String.mk (org1 :: orgRest), String.mk repo⟩)

/-- The part of `GITHUB_REMOTE_SSH_REGEX` after the optional `ssh://`:
literal `git@github`, then the (unescaped, hence wildcard) dot of
`github.com`, then literal `com:`, then the shared organization/repository
tail. -/
def matchSshFrom (cs : List Char) : Option RepositoryName := do
  let cs1 ← stripLit "git@github".data cs
  let cs2 ← stripDot cs1
  let cs3 ← stripLit "com:".data cs2
  matchOrgRepo cs3

/-- `GITHUB_REMOTE_SSH_REGEX` applied to a whole string:
`^(?:ssh://)?git@github.com:(?<organization>[^/]+)/(?<repository>.+?)(?:.git)?$`.
The greedy optional `(?:ssh://)?` is tried first; if the rest then fails,
the engine retries without it. -/
def githubRemoteSshMatch (cs : List Char) : Option RepositoryName :=
  (if cs.take 6 = "ssh://".data then matchSshFrom (cs.drop 6) else none) <|>
    matchSshFrom cs

/-- The part of `GITHUB_REMOTE_HTTP_REGEX` after `http` and the optional
`s`: literal `://github`, then the wildcard dot, then literal `com/`, then
the shared organization/repository tail. -/
def matchHttpFrom (cs : List Char) : Option RepositoryName := do
  let cs1 ← stripLit "://github".data cs
  let cs2 ← stripDot cs1
  let cs3 ← stripLit "com/".data cs2
  matchOrgRepo cs3

/-- `GITHUB_REMOTE_HTTP_REGEX` applied to a whole string:
`^https?://github.com/(?<organization>[^/]+)/(?<repository>.+?)(?:.git)?$`.
The greedy `s?` is tried first; if the rest then fails, the engine retries
without it. -/
def githubRemoteHttpMatch (cs : List Char) : Option RepositoryName := do
  let cs1 ← stripLit "http".data cs
  (if cs1.take 1 = "s".data then matchHttpFrom (cs1.drop 1) else none) <|>
    matchHttpFrom cs1

/-- `parseGithubUrl` from `extension.ts`: `undefined` input yields no
match; otherwise the SSH regex is tried, then (`??`) the HTTP one.  On a
match both named groups always participate, so the `match.groups`
destructuring in the source never sees `undefined`. -/
def parseGithubUrl : Option String → Option RepositoryName
  | none => none
  | some url => githubRemoteSshMatch url.data <|> githubRemoteHttpMatch url.data

/-- Models a remote from the VS Code Git extension API:
`{fetchUrl?: string, pushUrl?: string}` (the `name` field is not consumed). -/
structure Remote where
  fetchUrl : Option String
  pushUrl : Option String
deriving DecidableEq, Repr

/-- Models a working-tree change: the source reads only its `uri`. -/
structure Change where
  uri : Uri
deriving DecidableEq, Repr

/-- Models the `HEAD?: {commit?: string}` part of a repository state. -/
structure RefHead where
  commit : Option String
deriving DecidableEq, Repr

/-- Models `RepositoryState` from the Git extension typing: the fields the
source consumes. -/
structure RepositoryState where
  remotes : List Remote
  workingTreeChanges : List Change
  HEAD : Option RefHead
deriving DecidableEq, Repr

/-- Models `Repository` from the Git extension typing. -/
structure Repository where
  rootUri : Uri
  state : RepositoryState
deriving DecidableEq, Repr

/-- Models the Git extension `API`: only `getRepository` is consumed
(TypeScript `Repository | null` becomes `Option Repository`). -/
structure API where
  getRepository : Uri → Option Repository

/-- The `RepositoryInfo` interface of `extension.ts`. -/
structure RepositoryInfo where
  organization : String
  repository : String
  rootUri : Uri
  state : RepositoryState
deriving DecidableEq, Repr

/-- The `SelectionInfo` interface of `extension.ts` (zero-indexed lines). -/
structure SelectionInfo where
  fileUri : Uri
  startLine : Nat
  endLine : Nat
  isSingleLine : Bool
deriving DecidableEq, Repr

/-- The remote loop inside `getRepositoryInfo`: the first remote (in list
order) whose `fetchUrl ?? pushUrl` parses as GitHub wins; exhausting the
list throws `No GitHub origins found for matching repository`. -/
def findGithubRemote (repository : Repository) :
    List Remote → Except GetPermalinkError RepositoryInfo
  | [] => Except.error ⟨"No GitHub origins found for matching repository"⟩
  | remote :: rest =>
    match parseGithubUrl (remote.fetchUrl <|> remote.pushUrl) with
    | some name =>
      Except.ok ⟨name.organization, name.repository, repository.rootUri, repository.state⟩
    | none => findGithubRemote repository rest

/-- `getRepositoryInfo` from `extension.ts`. -/
def getRepositoryInfo (git : API) (fileUri : Uri) :
    Except GetPermalinkError RepositoryInfo := do
  let repository ← failIfNull (git.getRepository fileUri)
    ("No matching repository found for file " ++ fileUri.toString)
  findGithubRemote repository repository.state.remotes

/-- `getLineAnchor` from `extension.ts`: GitHub line numbers are 1-indexed,
hence the `+ 1` on the zero-indexed selection lines. -/
def getLineAnchor (selection : SelectionInfo) : String :=
  if selection.isSingleLine then
    "L" ++ toString (selection.startLine + 1)
  else
    "L" ++ toString (selection.startLine + 1) ++ "-L" ++ toString (selection.endLine + 1)

/-- `getCommitHash` from `extension.ts`: `repositoryState.HEAD?.commit`. -/
def getCommitHash (repositoryState : RepositoryState) :
    Except GetPermalinkError String :=
  failIfUndefined (repositoryState.HEAD.bind RefHead.commit)
    "Couldn\x27t determine commit sha for HEAD"

/-- The `forEach`-with-throw scan inside `failIfChangedFile`: the first
change whose `uri.path` equals the file's `uri.path` throws. -/
def changedFileScan (fileUri : Uri) : List Change → Except GetPermalinkError Unit
  | [] => Except.ok ()
  | change :: rest =>
    if change.uri.path = fileUri.path then
      Except.error
        ⟨"Can\x27t copy permalink because file " ++ fileUri.path ++ " has been modified"⟩
    else changedFileScan fileUri rest

/-- `failIfChangedFile` from `extension.ts`. -/
def failIfChangedFile (repositoryState : RepositoryState) (fileUri : Uri) :
    Except GetPermalinkError Unit :=
  changedFileScan fileUri repositoryState.workingTreeChanges

/-- Models the host-dependent collaborators `getLinkForSelection` consumes:
Node's `path.sep` (always a single character) and `path.relative`, and VS
Code's `Uri.fsPath` rendering. -/
structure Platform where
  sep : Char
  fsPath : Uri → String
  relative : String → String → String

/-- JavaScript `String.prototype.split` with a one-character separator
(`path.sep` is one character on every platform). -/
def splitOnChar (sep : Char) : List Char → List (List Char)
  | [] => [[]]
  | c :: rest =>
    if c = sep then [] :: splitOnChar sep rest
    else
      match splitOnChar sep rest with
      | [] => [[c]]
      | s :: ss => (c :: s) :: ss

/-- JavaScript `Array.prototype.join`. -/
def joinSep (sep : String) : List String → String
  | [] => ""
  | s :: rest => if rest.isEmpty then s else s ++ sep ++ joinSep sep rest

/-- Models the WHATWG `URL` class from `node:url` as the source uses it:
`new URL("https://github.com")` followed by assignments to `pathname` and
`hash`, then `toString()`. -/
structure URL where
  pathname : String
  hash : String
deriving DecidableEq, Repr

/-- Assigning `URL.pathname` runs the URL path parser.  For a special
scheme such as `https` that parser treats `\` exactly like `/` (URL
Standard, path state), which is the one transformation relevant to this
program; segments this program feeds it that satisfy `urlSafeSegment`
below are otherwise kept verbatim. -/
def URL.setPathname (u : URL) (s : String) : URL :=
  { u with pathname := String.mk (s.data.map (fun c => if c = '\\' then '/' else c)) }

/-- Assigning `URL.hash`: the fragment is stored; the source never passes a
leading `#`. -/
def URL.setHash (u : URL) (s : String) : URL :=
  { u with hash := s }

/-- `URL.toString()`: scheme and host, then the path, then the `#` fragment
when the fragment is non-empty. -/
def URL.toString (u : URL) : String :=
  "https://github.com" ++ u.pathname ++ (if u.hash = "" then "" else "#" ++ u.hash)

/-- A character on which the WHATWG URL path serializer is the identity (no
percent-encoding). -/
def urlSafeChar (c : Char) : Bool :=
  c.isAlphanum || c == '-' || c == '_' || c == '.' || c == '~'

/-- A path segment the WHATWG URL path parser keeps verbatim: non-empty,
not a `.`/`..` dot segment, and made of characters needing no encoding.
Used to state exact-output theorems faithfully. -/
def urlSafeSegment (s : String) : Bool :=
  !(s == "") && !(s == ".") && !(s == "..") && s.data.all urlSafeChar

/-- `getLinkForSelection` from `extension.ts`. -/
def getLinkForSelection (platform : Platform) (git : API)
    (selection : SelectionInfo) : Except GetPermalinkError URL := do
  let repositoryInfo ← getRepositoryInfo git selection.fileUri
  failIfChangedFile repositoryInfo.state selection.fileUri
  let relativePath :=
    platform.relative (platform.fsPath repositoryInfo.rootUri) (platform.fsPath selection.fileUri)
  let commitHash ← getCommitHash repositoryInfo.state
  let tokenizedRelativePath : List String :=
    (splitOnChar platform.sep relativePath.data).map String.mk
  let uriPathTokens :=
    [repositoryInfo.organization, repositoryInfo.repository, "blob", commitHash] ++
      tokenizedRelativePath
  let url0 : URL := { pathname := "/", hash := "" }
  let url1 := url0.setPathname ("/" ++ joinSep "/" uriPathTokens)
  let url2 := url1.setHash (getLineAnchor selection)
  Except.ok url2

/-- Does the string end in `git` with at least five characters overall?
Exactly the strings from which the trailing `(?:.git)?` group of the source
regexes strips four characters (the decidable form used in hypotheses). -/
def endsInGit (s : String) : Bool :=
  s.data.reverse.take 3 == ['t', 'i', 'g']

/-! Concrete host data used to instantiate theorems with hypotheses. -/

/-- A file inside the demo repository. -/
def demoFileUri : Uri := ⟨"file", "", "/home/dev/proj/src/extension.ts"⟩

/-- The demo repository root. -/
def demoRootUri : Uri := ⟨"file", "", "/home/dev/proj"⟩

/-- A clean repository state with one SSH GitHub remote and a HEAD commit. -/
def demoState : RepositoryState :=
  ⟨[⟨some "git@github.com:foo/bar", none⟩], [], some ⟨some "abc123"⟩⟩

def demoRepo : Repository := ⟨demoRootUri, demoState⟩

def demoGit : API := ⟨fun u => if u = demoFileUri then some demoRepo else none⟩

/-- A POSIX-flavoured platform: `path.sep` is `/`, `fsPath` is the URI path,
`path.relative` drops the root prefix and its separator. -/
def demoPlatform : Platform :=
  ⟨'/', fun u => u.path, fun root file => file.drop (root.length + 1)⟩

/-- A Windows-flavoured platform: `path.sep` is `\` and `path.relative`
produces a backslash-separated relative path. -/
def winPlatform : Platform :=
  ⟨'\\', fun u => u.path, fun _ _ => "src\\extension.ts"⟩

def demoSel : SelectionInfo := ⟨demoFileUri, 4, 4, true⟩

def demoSelMulti : SelectionInfo := ⟨demoFileUri, 4, 9, false⟩

/-- A repository state with no parseable GitHub remote: one remote with
neither URL, one GitLab remote. -/
def demoStateNoHub : RepositoryState :=
  ⟨[⟨none, none⟩, ⟨some "https://gitlab.com/a/b", none⟩], [], some ⟨some "abc123"⟩⟩

def demoRepoNoHub : Repository := ⟨demoRootUri, demoStateNoHub⟩

def demoGitNoHub : API := ⟨fun _ => some demoRepoNoHub⟩

/-- A repository state where the second remote is the first GitHub one and
is reached through its push URL. -/
def demoStateSecond : RepositoryState :=
  ⟨[⟨some "https://gitlab.com/a/b", none⟩, ⟨none, some "https://github.com/foo/bar.git"⟩],
    [], some ⟨some "abc123"⟩⟩

def demoRepoSecond : Repository := ⟨demoRootUri, demoStateSecond⟩

def demoGitSecond : API := ⟨fun _ => some demoRepoSecond⟩

/-- A repository state whose HEAD is absent. -/
def demoStateNoHead : RepositoryState :=
  ⟨[⟨some "git@github.com:foo/bar", none⟩], [], none⟩

def demoRepoNoHead : Repository := ⟨demoRootUri, demoStateNoHead⟩

def demoGitNoHead : API := ⟨fun _ => some demoRepoNoHead⟩

/-- A repository state in which the selected file has a working-tree
change (recorded under the `git` scheme, as the Git extension does). -/
def demoStateDirty : RepositoryState :=
  ⟨[⟨some "git@github.com:foo/bar", none⟩],
    [⟨⟨"git", "", "/home/dev/proj/src/extension.ts"⟩⟩], some ⟨some "abc123"⟩⟩

def demoRepoDirty : Repository := ⟨demoRootUri, demoStateDirty⟩

def demoGitDirty : API := ⟨fun _ => some demoRepoDirty⟩

/-- A working-tree change whose path differs from the demo file only in
letter case. -/
def demoStateCase : RepositoryState :=
  ⟨[⟨some "git@github.com:foo/bar", none⟩],
    [⟨⟨"git", "", "/home/dev/proj/src/Extension.ts"⟩⟩], some ⟨some "abc123"⟩⟩

/-! Helper lemmas about the embedded definitions. -/

theorem string_eq_of_data {a b : String} (h : a.data = b.data) : a = b := by
  cases a; cases b; exact congrArg String.mk h

theorem ok_bind {α β : Type} (a : α) (f : α → Except GetPermalinkError β) :
    (Except.ok a >>= f) = f a := rfl

theorem error_bind {α β : Type} (e : GetPermalinkError) (f : α → Except GetPermalinkError β) :
    ((Except.error e : Except GetPermalinkError α) >>= f) = Except.error e := rfl

theorem opt_orElse_none {α : Type} (x : Option α) : (x <|> (none : Option α)) = x := by
  cases x <;> rfl

theorem opt_orElse_eq_some {α : Type} {x y : Option α} {r : α}
    (h : (x <|> y) = some r) : x = some r ∨ (x = none ∧ y = some r) := by
  cases x with
  | none => exact Or.inr ⟨rfl, h⟩
  | some a => exact Or.inl h

theorem stripLit_self_append (p rest : List Char) : stripLit p (p ++ rest) = some rest := by
  induction p with
  | nil => rfl
  | cons c cs ih => simp [stripLit, ih]

theorem stripLit_eq_some : ∀ (p cs rest : List Char), stripLit p cs = some rest →
    cs = p ++ rest := by
  intro p
  induction p with
  | nil => intro cs rest h; simpa [stripLit] using h
  | cons a ps ih =>
    intro cs rest h
    cases cs with
    | nil => simp [stripLit] at h
    | cons c cs' =>
      by_cases hc : c = a
      · subst hc
        simp only [stripLit, if_pos rfl] at h
        simpa using ih cs' rest h
      · simp [stripLit, hc] at h

theorem stripDot_eq_some : ∀ (cs rest : List Char), stripDot cs = some rest →
    ∃ c, isLineTerm c = false ∧ cs = c :: rest := by
  intro cs rest h
  cases cs with
  | nil => simp [stripDot] at h
  | cons c cs' =>
    by_cases hl : isLineTerm c
    · simp [stripDot, hl] at h
    · simp only [stripDot, if_neg hl] at h
      exact ⟨c, by simpa using hl, by simpa using h⟩

theorem takeWhile_append_stop (f : Char → Bool) :
    ∀ (l : List Char) (x : Char) (r : List Char), (∀ c ∈ l, f c = true) → f x = false →
      (l ++ x :: r).takeWhile f = l := by
  intro l
  induction l with
  | nil => intro x r _ hx; simp [List.takeWhile_cons, hx]
  | cons a as ih =>
    intro x r hl hx
    have ha : f a = true := hl a (by simp)
    simp [List.takeWhile_cons, ha, ih x r (fun c hc => hl c (by simp [hc])) hx]

theorem dropWhile_append_stop (f : Char → Bool) :
    ∀ (l : List Char) (x : Char) (r : List Char), (∀ c ∈ l, f c = true) → f x = false →
      (l ++ x :: r).dropWhile f = x :: r := by
  intro l
  induction l with
  | nil => intro x r _ hx; simp [List.dropWhile_cons, hx]
  | cons a as ih =>
    intro x r hl hx
    have ha : f a = true := hl a (by simp)
    simp [List.dropWhile_cons, ha, ih x r (fun c hc => hl c (by simp [hc])) hx]

theorem lazyRepoGo_cons (acc : List Char) (c : Char) (rest : List Char) :
    lazyRepoGo acc (c :: rest) =
      if isLineTerm c then none
      else if tailOpt rest then some (acc ++ [c])
      else lazyRepoGo (acc ++ [c]) rest := rfl

theorem dotGitEnd_eq_true : ∀ {l : List Char}, dotGitEnd l = true →
    ∃ c, isLineTerm c = false ∧ l = c :: ['g', 'i', 't'] := by
  intro l h
  cases l with
  | nil => simp [dotGitEnd] at h
  | cons c rest =>
    simp only [dotGitEnd, Bool.and_eq_true, Bool.not_eq_true', beq_iff_eq] at h
    exact ⟨c, h.1, by rw [h.2]⟩

theorem tailOpt_eq_true : ∀ {l : List Char}, tailOpt l = true →
    l = [] ∨ ∃ c, isLineTerm c = false ∧ l = c :: ['g', 'i', 't'] := by
  intro l h
  rcases Bool.or_eq_true_iff.mp h with h1 | h1
  · exact Or.inr (dotGitEnd_eq_true h1)
  · exact Or.inl (by simpa using h1)

theorem tailOpt_dotgit (c0 : Char) (hc0 : isLineTerm c0 = false) :
    tailOpt (c0 :: ['g', 'i', 't']) = true := by
  simp [tailOpt, dotGitEnd, hc0]

theorem tailOpt_long (b : Char) (bs tail : List Char) (h4 : tail.length = 4) :
    tailOpt (b :: (bs ++ tail)) = false := by
  have hne : (bs ++ tail) ≠ ['g', 'i', 't'] := by
    intro hEq
    have := congrArg List.length hEq
    simp [h4] at this
  simp [tailOpt, dotGitEnd, hne]

theorem lazyRepoGo_sound : ∀ (T acc res : List Char), lazyRepoGo acc T = some res →
    ∃ repo, res = acc ++ repo ∧ repo ≠ [] ∧ (∀ c ∈ repo, isLineTerm c = false) ∧
      (T = repo ∨ ∃ c, isLineTerm c = false ∧ T = repo ++ c :: ['g', 'i', 't']) := by
  intro T
  induction T with
  | nil => intro acc res h; simp [lazyRepoGo] at h
  | cons c rest ih =>
    intro acc res h
    by_cases h1 : isLineTerm c
    · simp [lazyRepoGo, h1] at h
    · by_cases h2 : tailOpt rest
      · simp only [lazyRepoGo, if_neg h1, if_pos h2, Option.some.injEq] at h
        refine ⟨[c], by simp [h.symm], by simp, by simpa using h1, ?_⟩
        rcases tailOpt_eq_true h2 with h3 | ⟨c', hc', h3⟩
        · exact Or.inl (by simp [h3])
        · exact Or.inr ⟨c', hc', by simp [h3]⟩
      · simp only [lazyRepoGo, if_neg h1, if_neg h2] at h
        obtain ⟨repo, hres, hne, hchars, hdec⟩ := ih (acc ++ [c]) res h
        refine ⟨c :: repo, by simpa [List.append_assoc] using hres, by simp, ?_, ?_⟩
        · intro d hd
          rcases List.mem_cons.mp hd with hd | hd
          · subst hd; simpa using h1
          · exact hchars d hd
        · rcases hdec with h3 | ⟨c', hc', h3⟩
          · exact Or.inl (by simp [h3])
          · exact Or.inr ⟨c', hc', by simp [h3]⟩

theorem lazyRepoGo_dotgit : ∀ (repo : List Char) (c0 : Char) (acc : List Char),
    repo ≠ [] → (∀ c ∈ repo, isLineTerm c = false) → isLineTerm c0 = false →
    lazyRepoGo acc (repo ++ c0 :: ['g', 'i', 't']) = some (acc ++ repo) := by
  intro repo
  induction repo with
  | nil => intro c0 acc h0 _ _; exact absurd rfl h0
  | cons a as ih =>
    intro c0 acc _ hchars hc0
    have ha : isLineTerm a = false := hchars a (by simp)
    cases as with
    | nil => simp [lazyRepoGo, ha, tailOpt_dotgit c0 hc0]
    | cons b bs =>
      have ht : tailOpt (b :: (bs ++ c0 :: ['g', 'i', 't'])) = false :=
        tailOpt_long b bs _ (by simp)
      have step := ih c0 (acc ++ [a]) (by simp) (fun c hc => hchars c (by simp [hc])) hc0
      simp only [List.cons_append] at step ⊢
      rw [lazyRepoGo_cons, if_neg (by simp [ha]), if_neg (by simp [ht])]
      simpa [List.append_assoc] using step

theorem lazyRepoGo_bare : ∀ (repo acc : List Char),
    repo ≠ [] → (∀ c ∈ repo, isLineTerm c = false) →
    (∀ p c, p ≠ [] → repo ≠ p ++ c :: ['g', 'i', 't']) →
    lazyRepoGo acc repo = some (acc ++ repo) := by
  intro repo
  induction repo with
  | nil => intro acc h0 _ _; exact absurd rfl h0
  | cons a as ih =>
    intro acc _ hchars hng
    have ha : isLineTerm a = false := hchars a (by simp)
    cases as with
    | nil => simp [lazyRepoGo, ha, tailOpt]
    | cons b bs =>
      have ht : tailOpt (b :: bs) = false := by
        cases hEq : tailOpt (b :: bs) with
        | false => rfl
        | true =>
          rcases tailOpt_eq_true hEq with h3 | ⟨c', hc', h3⟩
          · simp at h3
          · exact absurd (by rw [h3]; rfl) (hng [a] c' (by simp))
      have step := ih (acc ++ [a]) (by simp) (fun c hc => hchars c (by simp [hc]))
        (fun p c hp hEq => hng (a :: p) c (by simp) (by simp [hEq]))
      rw [lazyRepoGo_cons, if_neg (by simp [ha]), if_neg (by simp [ht])]
      simpa [List.append_assoc] using step

theorem matchOrgRepo_at (org rest : List Char) (h0 : org ≠ [])
    (hslash : ∀ c ∈ org, c ≠ '/') :
    matchOrgRepo (org ++ '/' :: rest) =
      (lazyRepoGo [] rest).map (fun repo => ⟨String.mk org, String.mk repo⟩) := by
  have hf : ∀ c ∈ org, (c != '/') = true := by
    intro c hc; simpa using hslash c hc
  have ht := takeWhile_append_stop (fun c => c != '/') org '/' rest hf (by simp)
  have hd := dropWhile_append_stop (fun c => c != '/') org '/' rest hf (by simp)
  unfold matchOrgRepo
  rw [ht, hd]
  cases org with
  | nil => exact absurd rfl h0
  | cons a as => rfl

theorem dropWhile_head_false (f : Char → Bool) : ∀ (l : List Char) (d : Char) (ds : List Char),
    l.dropWhile f = d :: ds → f d = false := by
  intro l
  induction l with
  | nil => intro d ds h; simp [List.dropWhile] at h
  | cons a as ih =>
    intro d ds h
    by_cases hfa : f a
    · rw [List.dropWhile_cons, if_pos hfa] at h
      exact ih d ds h
    · rw [List.dropWhile_cons, if_neg hfa] at h
      injection h with h1 h2
      subst h1
      simpa using hfa

theorem matchOrgRepo_sound : ∀ (cs : List Char) (r : RepositoryName),
    matchOrgRepo cs = some r →
    r.organization.data ≠ [] ∧ (∀ c ∈ r.organization.data, c ≠ '/') ∧
      ∃ T, cs = r.organization.data ++ '/' :: T ∧ lazyRepoGo [] T = some r.repository.data := by
  intro cs r h
  unfold matchOrgRepo at h
  split at h
  · exact absurd h (by simp)
  · exact absurd h (by simp)
  next a as d ds hT hD =>
    rcases hL : lazyRepoGo [] ds with _ | repo <;> rw [hL] at h
    · simp at h
    · have h2 : (⟨⟨a :: as⟩, ⟨repo⟩⟩ : RepositoryName) = r := by simpa using h
      have horg : r.organization.data = a :: as := by rw [← h2]
      have hrepo : r.repository.data = repo := by rw [← h2]
      have hd : d = '/' := by
        have := dropWhile_head_false (fun c => c != '/') cs d ds hD
        simpa using this
      refine ⟨by simp [horg], ?_, ds, ?_, by rw [hrepo]; exact hL⟩
      · intro c hc
        rw [horg] at hc
        have := List.mem_takeWhile_imp (hT ▸ hc)
        simpa using this
      · rw [horg, ← hd, ← hT, ← hD]
        exact (List.takeWhile_append_dropWhile ..).symm

theorem opt_none_orElse {α : Type} (x : Option α) : ((none : Option α) <|> x) = x := rfl

theorem githubRemoteSshMatch_at (rest : List Char) :
    githubRemoteSshMatch ("git@github.com:".data ++ rest) = matchOrgRepo rest := rfl

theorem githubRemoteSshMatch_none_on_https (rest : List Char) :
    githubRemoteSshMatch ("https://github.com/".data ++ rest) = none := rfl

theorem githubRemoteHttpMatch_none_on_ssh (rest : List Char) :
    githubRemoteHttpMatch ("git@github.com:".data ++ rest) = none := rfl

theorem githubRemoteHttpMatch_at (rest : List Char) :
    githubRemoteHttpMatch ("https://github.com/".data ++ rest) = matchOrgRepo rest := by
  have h : githubRemoteHttpMatch ("https://github.com/".data ++ rest) =
      (matchOrgRepo rest <|> (none : Option RepositoryName)) := rfl
  rw [h, opt_orElse_none]

theorem parseGithubUrl_sshStr (s : String) :
    parseGithubUrl (some ("git@github.com:" ++ s)) = matchOrgRepo s.data := by
  have h0 : parseGithubUrl (some ("git@github.com:" ++ s)) =
      (matchOrgRepo s.data <|> (none : Option RepositoryName)) := rfl
  rw [h0, opt_orElse_none]

theorem parseGithubUrl_httpsStr (s : String) :
    parseGithubUrl (some ("https://github.com/" ++ s)) = matchOrgRepo s.data := by
  have h0 : parseGithubUrl (some ("https://github.com/" ++ s)) =
      (matchOrgRepo s.data <|> (none : Option RepositoryName)) := rfl
  rw [h0, opt_orElse_none]

theorem matchSshFrom_sound : ∀ (cs : List Char) (r : RepositoryName),
    matchSshFrom cs = some r →
    ∃ pre rest, cs = pre ++ rest ∧ matchOrgRepo rest = some r := by
  intro cs r h
  unfold matchSshFrom at h
  rcases h1 : stripLit "git@github".data cs with _ | cs1 <;> rw [h1] at h
  · simp at h
  · simp only [Option.bind_eq_bind, Option.some_bind] at h
    rcases h2 : stripDot cs1 with _ | cs2 <;> rw [h2] at h
    · simp at h
    · simp only [Option.some_bind] at h
      rcases h3 : stripLit "com:".data cs2 with _ | cs3 <;> rw [h3] at h
      · simp at h
      · simp only [Option.some_bind] at h
        obtain ⟨c, _, hc⟩ := stripDot_eq_some cs1 cs2 h2
        refine ⟨"git@github".data ++ c :: "com:".data, cs3, ?_, h⟩
        rw [stripLit_eq_some _ _ _ h1, hc, stripLit_eq_some _ _ _ h3]
        simp

theorem matchHttpFrom_sound : ∀ (cs : List Char) (r : RepositoryName),
    matchHttpFrom cs = some r →
    ∃ pre rest, cs = pre ++ rest ∧ matchOrgRepo rest = some r := by
  intro cs r h
  unfold matchHttpFrom at h
  rcases h1 : stripLit "://github".data cs with _ | cs1 <;> rw [h1] at h
  · simp at h
  · simp only [Option.bind_eq_bind, Option.some_bind] at h
    rcases h2 : stripDot cs1 with _ | cs2 <;> rw [h2] at h
    · simp at h
    · simp only [Option.some_bind] at h
      rcases h3 : stripLit "com/".data cs2 with _ | cs3 <;> rw [h3] at h
      · simp at h
      · simp only [Option.some_bind] at h
        obtain ⟨c, _, hc⟩ := stripDot_eq_some cs1 cs2 h2
        refine ⟨"://github".data ++ c :: "com/".data, cs3, ?_, h⟩
        rw [stripLit_eq_some _ _ _ h1, hc, stripLit_eq_some _ _ _ h3]
        simp

theorem githubRemoteSshMatch_sound : ∀ (cs : List Char) (r : RepositoryName),
    githubRemoteSshMatch cs = some r →
    ∃ pre rest, cs = pre ++ rest ∧ matchOrgRepo rest = some r := by
  intro cs r h
  unfold githubRemoteSshMatch at h
  rcases opt_orElse_eq_some h with h1 | ⟨_, h2⟩
  · by_cases hc : cs.take 6 = "ssh://".data
    · rw [if_pos hc] at h1
      obtain ⟨pre, rest, hdec, hm⟩ := matchSshFrom_sound _ _ h1
      refine ⟨cs.take 6 ++ pre, rest, ?_, hm⟩
      conv_lhs => rw [← List.take_append_drop 6 cs]
      rw [hdec, List.append_assoc]
    · rw [if_neg hc] at h1
      simp at h1
  · exact matchSshFrom_sound _ _ h2

theorem githubRemoteHttpMatch_sound : ∀ (cs : List Char) (r : RepositoryName),
    githubRemoteHttpMatch cs = some r →
    ∃ pre rest, cs = pre ++ rest ∧ matchOrgRepo rest = some r := by
  intro cs r h
  unfold githubRemoteHttpMatch at h
  rcases h1 : stripLit "http".data cs with _ | cs1 <;> rw [h1] at h
  · simp at h
  · simp only [Option.bind_eq_bind, Option.some_bind] at h
    have hcs : cs = "http".data ++ cs1 := stripLit_eq_some _ _ _ h1
    rcases opt_orElse_eq_some h with h2 | ⟨_, h3⟩
    · by_cases hc : cs1.take 1 = "s".data
      · rw [if_pos hc] at h2
        obtain ⟨pre, rest, hdec, hm⟩ := matchHttpFrom_sound _ _ h2
        refine ⟨"http".data ++ cs1.take 1 ++ pre, rest, ?_, hm⟩
        rw [hcs]
        conv_lhs => rw [← List.take_append_drop 1 cs1]
        rw [hdec, List.append_assoc, List.append_assoc]
      · rw [if_neg hc] at h2
        simp at h2
    · obtain ⟨pre, rest, hdec, hm⟩ := matchHttpFrom_sound _ _ h3
      exact ⟨"http".data ++ pre, rest, by rw [hcs, hdec, List.append_assoc], hm⟩

theorem no_gitsplit_of_not_endsInGit (s : String)
    (h : ¬(endsInGit s = true ∧ 5 ≤ s.length)) :
    ∀ p c, p ≠ [] → s.data ≠ p ++ c :: ['g', 'i', 't'] := by
  intro p c hp hEq
  apply h
  constructor
  · unfold endsInGit
    rw [hEq]
    simp [List.reverse_append]
  · have hlen : s.data.length = p.length + 4 := by rw [hEq]; simp
    have hp1 : 1 ≤ p.length := List.length_pos.mpr hp
    have hsl : s.length = s.data.length := rfl
    omega

theorem matchOrgRepo_bare (org repo : String) (h0 : org.data ≠ [])
    (hs : ∀ c ∈ org.data, c ≠ '/') (h1 : repo.data ≠ [])
    (hc : ∀ c ∈ repo.data, isLineTerm c = false)
    (hng : ¬(endsInGit repo = true ∧ 5 ≤ repo.length)) :
    matchOrgRepo (org.data ++ '/' :: repo.data) = some ⟨org, repo⟩ := by
  rw [matchOrgRepo_at org.data repo.data h0 hs,
    lazyRepoGo_bare repo.data [] h1 hc (no_gitsplit_of_not_endsInGit repo hng)]
  rfl

theorem matchOrgRepo_dotgit (org repo : String) (h0 : org.data ≠ [])
    (hs : ∀ c ∈ org.data, c ≠ '/') (h1 : repo.data ≠ [])
    (hc : ∀ c ∈ repo.data, isLineTerm c = false) :
    matchOrgRepo (org.data ++ '/' :: (repo.data ++ '.' :: ['g', 'i', 't'])) =
      some ⟨org, repo⟩ := by
  rw [matchOrgRepo_at _ _ h0 hs, lazyRepoGo_dotgit repo.data '.' [] h1 hc (by rfl)]
  rfl

/-- C2 counterexample: the parser can return a repository containing `/`
(`https://github.com/a/b/c` parses with repository `b/c`), and because the
dot in `(?:.git)?` is unescaped it can strip a suffix that is not a literal
`.git`: `git@github.com:foo/mygit` yields repository `m`, which is neither
`mygit` nor `mygit` minus a `.git` suffix. -/
theorem c2_counterexample :
    parseGithubUrl (some "https://github.com/a/b/c") = some ⟨"a", "b/c"⟩ ∧
    '/' ∈ ("b/c" : String).data ∧
    parseGithubUrl (some "git@github.com:foo/mygit") = some ⟨"foo", "m"⟩ ∧
    parseGithubUrl (some "git@github.com:foo/mygit") ≠ some ⟨"foo", "mygit"⟩ :=
  ⟨by decide, by decide, by decide, by decide⟩

/-- C2 amended: on every successful parse the organization contains no `/`,
the repository is non-empty, and the input ends with the organization, a
`/`, and the repository followed by an optional four-character suffix of
one arbitrary character and `git` (not only a literal `.git`); nothing
constrains the repository to avoid `/`. -/
theorem c2_parser_invariants : ∀ (u : String) (r : RepositoryName),
    parseGithubUrl (some u) = some r →
    (∀ c ∈ r.organization.data, c ≠ '/') ∧ r.repository.data ≠ [] ∧
      ∃ pre T, u.data = pre ++ r.organization.data ++ '/' :: T ∧
        (T = r.repository.data ∨
          ∃ c, isLineTerm c = false ∧ T = r.repository.data ++ c :: ['g', 'i', 't']) := by
  intro u r h
  have h0 : (githubRemoteSshMatch u.data <|> githubRemoteHttpMatch u.data) = some r := h
  have hdec : ∃ pre rest, u.data = pre ++ rest ∧ matchOrgRepo rest = some r := by
    rcases opt_orElse_eq_some h0 with h1 | ⟨_, h2⟩
    · exact githubRemoteSshMatch_sound _ _ h1
    · exact githubRemoteHttpMatch_sound _ _ h2
  obtain ⟨pre, rest, hu, hm⟩ := hdec
  obtain ⟨hne, hslash, T, hrest, hlazy⟩ := matchOrgRepo_sound _ _ hm
  obtain ⟨repo, hres, hrne, hchars, hTd⟩ := lazyRepoGo_sound T [] _ hlazy
  have hrd : r.repository.data = repo := by simpa using hres
  refine ⟨hslash, by rw [hrd]; exact hrne, pre, T, ?_, ?_⟩
  · rw [hu, hrest, ← List.append_assoc]
  · rcases hTd with h3 | ⟨c, hc, h3⟩
    · exact Or.inl (by rw [hrd]; exact h3)
    · exact Or.inr ⟨c, hc, by rw [hrd]; exact h3⟩

/-- Witness for C2 amended, at `git@github.com:foo/bar.git`. -/
theorem c2_witness :
    parseGithubUrl (some "git@github.com:foo/bar.git") = some ⟨"foo", "bar"⟩ ∧
    ((∀ c ∈ (⟨"foo", "bar"⟩ : RepositoryName).organization.data, c ≠ '/') ∧
      (⟨"foo", "bar"⟩ : RepositoryName).repository.data ≠ [] ∧
      ∃ pre T, ("git@github.com:foo/bar.git" : String).data =
          pre ++ (⟨"foo", "bar"⟩ : RepositoryName).organization.data ++ '/' :: T ∧
        (T = (⟨"foo", "bar"⟩ : RepositoryName).repository.data ∨
          ∃ c, isLineTerm c = false ∧
            T = (⟨"foo", "bar"⟩ : RepositoryName).repository.data ++ c :: ['g', 'i', 't'])) :=
  ⟨by decide, c2_parser_invariants "git@github.com:foo/bar.git" ⟨"foo", "bar"⟩ (by decide)⟩

/-- C3 counterexample: with ORG = `foo` and REPO = `mygit`, the bare form
parses to repository `m` while the `.git` form parses to `mygit` — the two
forms are not identical and the bare form does not yield REPO. -/
theorem c3_counterexample :
    parseGithubUrl (some "git@github.com:foo/mygit") = some ⟨"foo", "m"⟩ ∧
    parseGithubUrl (some "git@github.com:foo/mygit.git") = some ⟨"foo", "mygit"⟩ ∧
    (some (⟨"foo", "m"⟩ : RepositoryName)) ≠ some ⟨"foo", "mygit"⟩ :=
  ⟨by decide, by decide, by decide⟩

/-- C3 amended: the four URL forms all parse to `{ORG, REPO}` provided REPO
additionally matches no `.`-wildcard `git` suffix (it does not both end in
`git` and have length at least five) and contains no line terminators. -/
theorem c3_suffix_insensitive : ∀ (org repo : String),
    org ≠ "" → (∀ c ∈ org.data, c ≠ '/') →
    repo ≠ "" → (∀ c ∈ repo.data, isLineTerm c = false) →
    ¬(endsInGit repo = true ∧ 5 ≤ repo.length) →
    parseGithubUrl (some ("git@github.com:" ++ org ++ "/" ++ repo)) = some ⟨org, repo⟩ ∧
    parseGithubUrl (some ("git@github.com:" ++ org ++ "/" ++ repo ++ ".git")) =
      some ⟨org, repo⟩ ∧
    parseGithubUrl (some ("https://github.com/" ++ org ++ "/" ++ repo)) = some ⟨org, repo⟩ ∧
    parseGithubUrl (some ("https://github.com/" ++ org ++ "/" ++ repo ++ ".git")) =
      some ⟨org, repo⟩ := by
  intro org repo h0 hs h1 hc hng
  have h0' : org.data ≠ [] := fun hn => h0 (string_eq_of_data (by simpa using hn))
  have h1' : repo.data ≠ [] := fun hn => h1 (string_eq_of_data (by simpa using hn))
  have e1 : "git@github.com:" ++ org ++ "/" ++ repo =
      "git@github.com:" ++ (org ++ "/" ++ repo) := by
    simp [String.append_assoc]
  have e2 : "git@github.com:" ++ org ++ "/" ++ repo ++ ".git" =
      "git@github.com:" ++ (org ++ "/" ++ (repo ++ ".git")) := by
    simp [String.append_assoc]
  have e3 : "https://github.com/" ++ org ++ "/" ++ repo =
      "https://github.com/" ++ (org ++ "/" ++ repo) := by
    simp [String.append_assoc]
  have e4 : "https://github.com/" ++ org ++ "/" ++ repo ++ ".git" =
      "https://github.com/" ++ (org ++ "/" ++ (repo ++ ".git")) := by
    simp [String.append_assoc]
  have hdata1 : (org ++ "/" ++ repo).data = org.data ++ '/' :: repo.data := by
    simp only [String.data_append, List.append_assoc]
    rfl
  have hdata2 : (org ++ "/" ++ (repo ++ ".git")).data =
      org.data ++ '/' :: (repo.data ++ '.' :: ['g', 'i', 't']) := by
    simp only [String.data_append, List.append_assoc]
    rfl
  refine ⟨?_, ?_, ?_, ?_⟩
  · rw [e1, parseGithubUrl_sshStr, hdata1]
    exact matchOrgRepo_bare org repo h0' hs h1' hc hng
  · rw [e2, parseGithubUrl_sshStr, hdata2]
    exact matchOrgRepo_dotgit org repo h0' hs h1' hc
  · rw [e3, parseGithubUrl_httpsStr, hdata1]
    exact matchOrgRepo_bare org repo h0' hs h1' hc hng
  · rw [e4, parseGithubUrl_httpsStr, hdata2]
    exact matchOrgRepo_dotgit org repo h0' hs h1' hc

/-- Witness for C3 amended, at ORG = `foo`, REPO = `bar`. -/
theorem c3_witness :
    ("foo" : String) ≠ "" ∧ ("bar" : String) ≠ "" ∧
    parseGithubUrl (some ("git@github.com:" ++ "foo" ++ "/" ++ "bar")) =
      some ⟨"foo", "bar"⟩ ∧
    parseGithubUrl (some ("git@github.com:" ++ "foo" ++ "/" ++ "bar" ++ ".git")) =
      some ⟨"foo", "bar"⟩ ∧
    parseGithubUrl (some ("https://github.com/" ++ "foo" ++ "/" ++ "bar")) =
      some ⟨"foo", "bar"⟩ ∧
    parseGithubUrl (some ("https://github.com/" ++ "foo" ++ "/" ++ "bar" ++ ".git")) =
      some ⟨"foo", "bar"⟩ := by
  have h := c3_suffix_insensitive "foo" "bar" (by decide) (by decide) (by decide)
    (by decide) (by decide)
  exact ⟨by decide, by decide, h.1, h.2.1, h.2.2.1, h.2.2.2⟩

/-- C6 counterexample: the unescaped dots make the host a wildcard —
`https://github4com/a/b` (host `github4com`, not `github.com`) parses
successfully — and trailing characters after a GitHub-shaped prefix are
absorbed into the repository group rather than rejected. -/
theorem c6_counterexample :
    parseGithubUrl (some "https://github4com/a/b") = some ⟨"a", "b"⟩ ∧
    parseGithubUrl (some "https://github.com/a/b junk") = some ⟨"a", "b junk"⟩ :=
  ⟨by decide, by decide⟩

/-- C6 amended: `https://gitlab.com/a/b` indeed yields no match, and the
patterns are anchored at the start — any URL whose first character is not
`g`, `s` or `h` yields no match — but the host dot is a wildcard
(`https://github4com/a/b` parses), and trailing characters are absorbed
into the repository rather than causing rejection. -/
theorem c6_anchored_wildcard_host :
    parseGithubUrl (some "https://gitlab.com/a/b") = none ∧
    (∀ (u : String) (c : Char) (cs : List Char), u.data = c :: cs →
      c ≠ 'g' → c ≠ 's' → c ≠ 'h' → parseGithubUrl (some u) = none) ∧
    parseGithubUrl (some "https://github4com/a/b") = some ⟨"a", "b"⟩ := by
  refine ⟨by decide, ?_, by decide⟩
  intro u c cs hu hg hs hh
  have hP : parseGithubUrl (some u) =
      (githubRemoteSshMatch u.data <|> githubRemoteHttpMatch u.data) := rfl
  rw [hP, hu]
  have hm : matchSshFrom (c :: cs) = none := by
    unfold matchSshFrom
    rw [show stripLit "git@github".data (c :: cs) =
      (if c = 'g' then stripLit "it@github".data cs else none) from rfl, if_neg hg]
    rfl
  have htake : ¬((c :: cs).take 6 = "ssh://".data) := by
    intro hEq
    apply hs
    have hhd := congrArg List.head? hEq
    rw [show ((c :: cs).take 6).head? = some c from rfl,
      show (("ssh://".data : List Char)).head? = some 's' from rfl] at hhd
    exact Option.some.inj hhd
  have hssh : githubRemoteSshMatch (c :: cs) = none := by
    unfold githubRemoteSshMatch
    rw [if_neg htake, opt_none_orElse, hm]
  have hhttp : githubRemoteHttpMatch (c :: cs) = none := by
    unfold githubRemoteHttpMatch
    rw [show stripLit "http".data (c :: cs) =
      (if c = 'h' then stripLit "ttp".data cs else none) from rfl, if_neg hh]
    rfl
  rw [hssh, opt_none_orElse, hhttp]

/-- Witness for C6 amended, at the leading-junk string
`xhttps://github.com/a/b`. -/
theorem c6_witness :
    ("xhttps://github.com/a/b" : String).data =
      'x' :: ("https://github.com/a/b" : String).data ∧
    parseGithubUrl (some "xhttps://github.com/a/b") = none :=
  ⟨rfl, c6_anchored_wildcard_host.2.1 "xhttps://github.com/a/b" 'x'
    ("https://github.com/a/b" : String).data rfl (by decide) (by decide) (by decide)⟩

theorem changedFileScan_ok_iff (fileUri : Uri) : ∀ (l : List Change),
    changedFileScan fileUri l = Except.ok () ↔
      ∀ ch ∈ l, ch.uri.path ≠ fileUri.path := by
  intro l
  induction l with
  | nil => simp [changedFileScan]
  | cons ch rest ih =>
    by_cases h : ch.uri.path = fileUri.path
    · simp [changedFileScan, h]
    · simp [changedFileScan, h, ih]

theorem changedFileScan_error_iff (fileUri : Uri) : ∀ (l : List Change),
    changedFileScan fileUri l =
        Except.error ⟨"Can\x27t copy permalink because file " ++ fileUri.path ++
          " has been modified"⟩ ↔
      ∃ ch ∈ l, ch.uri.path = fileUri.path := by
  intro l
  induction l with
  | nil => simp [changedFileScan]
  | cons ch rest ih =>
    by_cases h : ch.uri.path = fileUri.path
    · simp [changedFileScan, h]
    · simp [changedFileScan, h, ih]

theorem findGithubRemote_none (repository : Repository) : ∀ (rs : List Remote),
    (∀ r ∈ rs, parseGithubUrl (r.fetchUrl <|> r.pushUrl) = none) →
    findGithubRemote repository rs =
      Except.error ⟨"No GitHub origins found for matching repository"⟩ := by
  intro rs
  induction rs with
  | nil => intro _; rfl
  | cons r rest ih =>
    intro hall
    have hr := hall r (by simp)
    unfold findGithubRemote
    rw [hr]
    exact ih (fun r' hr' => hall r' (by simp [hr']))

theorem findGithubRemote_first (repository : Repository) : ∀ (pre : List Remote)
    (rem : Remote) (post : List Remote) (name : RepositoryName),
    (∀ r ∈ pre, parseGithubUrl (r.fetchUrl <|> r.pushUrl) = none) →
    parseGithubUrl (rem.fetchUrl <|> rem.pushUrl) = some name →
    findGithubRemote repository (pre ++ rem :: post) =
      Except.ok ⟨name.organization, name.repository, repository.rootUri, repository.state⟩ := by
  intro pre
  induction pre with
  | nil =>
    intro rem post name _ hrem
    simp only [List.nil_append]
    unfold findGithubRemote
    rw [hrem]
  | cons r pres ih =>
    intro rem post name hpre hrem
    have hr := hpre r (by simp)
    simp only [List.cons_append]
    unfold findGithubRemote
    rw [hr]
    exact ih rem post name (fun r' h' => hpre r' (by simp [h'])) hrem

theorem getRepositoryInfo_some (git : API) (fileUri : Uri) (repo : Repository)
    (h : git.getRepository fileUri = some repo) :
    getRepositoryInfo git fileUri = findGithubRemote repo repo.state.remotes := by
  unfold getRepositoryInfo
  rw [h]
  rfl

/-- C4: once the repository is resolved, a working-tree change whose path
equals the selection's file path makes the whole resolution fail with the
`FileModified` message (which names the file), for every repository state —
in particular for every value of `HEAD`, which is never consulted since the
dirty-file guard runs before commit-hash resolution. -/
theorem c4_dirty_file_guard : ∀ (platform : Platform) (git : API)
    (sel : SelectionInfo) (info : RepositoryInfo),
    getRepositoryInfo git sel.fileUri = Except.ok info →
    (∃ ch ∈ info.state.workingTreeChanges, ch.uri.path = sel.fileUri.path) →
    getLinkForSelection platform git sel =
      Except.error ⟨"Can\x27t copy permalink because file " ++ sel.fileUri.path ++
        " has been modified"⟩ := by
  intro platform git sel info h1 h2
  have hfail : failIfChangedFile info.state sel.fileUri =
      Except.error ⟨"Can\x27t copy permalink because file " ++ sel.fileUri.path ++
        " has been modified"⟩ :=
    (changedFileScan_error_iff sel.fileUri info.state.workingTreeChanges).mpr h2
  unfold getLinkForSelection
  simp only [h1, ok_bind, hfail, error_bind]

/-- Witness for C4: a dirty `src/extension.ts` (under the `git` scheme, and
with a HEAD commit present) aborts resolution with the `FileModified`
message. -/
theorem c4_witness :
    getRepositoryInfo demoGitDirty demoSel.fileUri =
      Except.ok ⟨"foo", "bar", demoRootUri, demoStateDirty⟩ ∧
    (∃ ch ∈ demoStateDirty.workingTreeChanges, ch.uri.path = demoSel.fileUri.path) ∧
    getLinkForSelection demoPlatform demoGitDirty demoSel =
      Except.error ⟨"Can\x27t copy permalink because file " ++ demoSel.fileUri.path ++
        " has been modified"⟩ :=
  ⟨rfl, by decide,
    c4_dirty_file_guard demoPlatform demoGitDirty demoSel
      ⟨"foo", "bar", demoRootUri, demoStateDirty⟩ rfl (by decide)⟩

/-- C5: repository resolution parses, for each remote in order, its fetch
URL if present else its push URL; the first successful parse supplies the
organization and repository, and if no remote parses (including an empty
remote list, and remotes with neither URL — `parseGithubUrl none = none`)
the resolution fails with `NoGitHubRemote`. -/
theorem c5_remote_selection : ∀ (git : API) (fileUri : Uri) (repo : Repository),
    git.getRepository fileUri = some repo →
    ((∀ r ∈ repo.state.remotes, parseGithubUrl (r.fetchUrl <|> r.pushUrl) = none) →
      getRepositoryInfo git fileUri =
        Except.error ⟨"No GitHub origins found for matching repository"⟩) ∧
    (∀ (pre : List Remote) (rem : Remote) (post : List Remote) (name : RepositoryName),
      repo.state.remotes = pre ++ rem :: post →
      (∀ r ∈ pre, parseGithubUrl (r.fetchUrl <|> r.pushUrl) = none) →
      parseGithubUrl (rem.fetchUrl <|> rem.pushUrl) = some name →
      getRepositoryInfo git fileUri =
        Except.ok ⟨name.organization, name.repository, repo.rootUri, repo.state⟩) ∧
    parseGithubUrl none = none := by
  intro git fileUri repo h
  have hg := getRepositoryInfo_some git fileUri repo h
  refine ⟨?_, ?_, rfl⟩
  · intro hall
    rw [hg]
    exact findGithubRemote_none repo repo.state.remotes hall
  · intro pre rem post name hsplit hpre hrem
    rw [hg, hsplit]
    exact findGithubRemote_first repo pre rem post name hpre hrem

/-- Witness for C5: a remote list with no GitHub remote (one remote with
neither URL, one GitLab remote) fails with `NoGitHubRemote`; a list whose
second remote is GitHub (via its push URL, the fetch URL being absent)
resolves to that remote's organization and repository. -/
theorem c5_witness :
    demoGitNoHub.getRepository demoFileUri = some demoRepoNoHub ∧
    getRepositoryInfo demoGitNoHub demoFileUri =
      Except.error ⟨"No GitHub origins found for matching repository"⟩ ∧
    demoGitSecond.getRepository demoFileUri = some demoRepoSecond ∧
    getRepositoryInfo demoGitSecond demoFileUri =
      Except.ok ⟨"foo", "bar", demoRootUri, demoStateSecond⟩ := by
  have h1 := (c5_remote_selection demoGitNoHub demoFileUri demoRepoNoHub rfl).1 (by decide)
  have h2 := (c5_remote_selection demoGitSecond demoFileUri demoRepoSecond rfl).2.1
    [⟨some "https://gitlab.com/a/b", none⟩] ⟨none, some "https://github.com/foo/bar.git"⟩
    [] ⟨"foo", "bar"⟩ rfl (by decide) (by decide)
  exact ⟨rfl, h1, rfl, h2⟩

/-- C7: with the repository resolved and the file clean, an absent `HEAD`
or an absent `HEAD.commit` makes resolution fail with `NoCommitHash`;
conversely a present commit is returned unchanged by `getCommitHash`. -/
theorem c7_commit_hash :
    (∀ (platform : Platform) (git : API) (sel : SelectionInfo) (info : RepositoryInfo),
      getRepositoryInfo git sel.fileUri = Except.ok info →
      failIfChangedFile info.state sel.fileUri = Except.ok () →
      (info.state.HEAD = none ∨ info.state.HEAD = some ⟨none⟩) →
      getLinkForSelection platform git sel =
        Except.error ⟨"Couldn\x27t determine commit sha for HEAD"⟩) ∧
    (∀ (st : RepositoryState) (hd : RefHead) (sha : String),
      st.HEAD = some hd → hd.commit = some sha → getCommitHash st = Except.ok sha) := by
  constructor
  · intro platform git sel info h1 h2 h3
    have hch : getCommitHash info.state =
        Except.error ⟨"Couldn\x27t determine commit sha for HEAD"⟩ := by
      unfold getCommitHash
      rcases h3 with h3 | h3 <;> rw [h3] <;> rfl
    unfold getLinkForSelection
    simp only [h1, ok_bind, h2, hch, error_bind]
  · intro st hd sha h1 h2
    unfold getCommitHash
    rw [h1]
    simp [failIfUndefined, h2]

/-- Witness for C7: a repository with a GitHub remote, clean file, and no
`HEAD` fails with `NoCommitHash`; `getCommitHash` on the demo state with
commit `abc123` returns `abc123`. -/
theorem c7_witness :
    getRepositoryInfo demoGitNoHead demoSel.fileUri =
      Except.ok ⟨"foo", "bar", demoRootUri, demoStateNoHead⟩ ∧
    failIfChangedFile demoStateNoHead demoSel.fileUri = Except.ok () ∧
    demoStateNoHead.HEAD = none ∧
    getLinkForSelection demoPlatform demoGitNoHead demoSel =
      Except.error ⟨"Couldn\x27t determine commit sha for HEAD"⟩ ∧
    getCommitHash demoState = Except.ok "abc123" := by
  refine ⟨rfl, rfl, rfl, ?_, ?_⟩
  · exact c7_commit_hash.1 demoPlatform demoGitNoHead demoSel
      ⟨"foo", "bar", demoRootUri, demoStateNoHead⟩ rfl rfl (Or.inl rfl)
  · exact c7_commit_hash.2 demoState ⟨some "abc123"⟩ "abc123" rfl rfl

/-- C9: the dirty-file guard succeeds exactly when no working-tree change
has a path string equal (exact, case-sensitive) to the selection's path,
and fails with the `FileModified` message exactly when one does — the URI
scheme and authority play no role in the comparison. -/
theorem c9_path_equality_guard : ∀ (st : RepositoryState) (fileUri : Uri),
    (failIfChangedFile st fileUri = Except.ok () ↔
      ∀ ch ∈ st.workingTreeChanges, ch.uri.path ≠ fileUri.path) ∧
    (failIfChangedFile st fileUri =
        Except.error ⟨"Can\x27t copy permalink because file " ++ fileUri.path ++
          " has been modified"⟩ ↔
      ∃ ch ∈ st.workingTreeChanges, ch.uri.path = fileUri.path) := by
  intro st fileUri
  exact ⟨changedFileScan_ok_iff fileUri st.workingTreeChanges,
    changedFileScan_error_iff fileUri st.workingTreeChanges⟩

/-- Witness for C9: a change differing from the file only in path letter
case does not trigger the guard, while a change with equal path but a
different URI scheme (`git` versus `file`) does. -/
theorem c9_witness :
    failIfChangedFile demoStateCase demoFileUri = Except.ok () ∧
    failIfChangedFile demoStateDirty demoFileUri =
      Except.error ⟨"Can\x27t copy permalink because file " ++ demoFileUri.path ++
        " has been modified"⟩ :=
  ⟨(c9_path_equality_guard demoStateCase demoFileUri).1.mpr (by decide),
    (c9_path_equality_guard demoStateDirty demoFileUri).2.mpr (by decide)⟩

/-- C10: the line anchor is decided solely by `isSingleLine`: a multi-line
flag always produces `L<start+1>-L<end+1>` (even when the two lines are
equal), and a single-line flag produces `L<start+1>` — an expression in
which `endLine` does not occur. -/
theorem c10_anchor_single_line_flag :
    (∀ s : SelectionInfo, s.isSingleLine = false →
      getLineAnchor s =
        "L" ++ toString (s.startLine + 1) ++ "-L" ++ toString (s.endLine + 1)) ∧
    (∀ s : SelectionInfo, s.isSingleLine = true →
      getLineAnchor s = "L" ++ toString (s.startLine + 1)) := by
  constructor <;> intro s h <;> simp [getLineAnchor, h]

/-- Witness for C10: `isSingleLine = false` with equal lines 4,4 yields
`L5-L5`; `isSingleLine = true` yields `L5` whatever the end line is. -/
theorem c10_witness :
    (⟨demoFileUri, 4, 4, false⟩ : SelectionInfo).isSingleLine = false ∧
    getLineAnchor ⟨demoFileUri, 4, 4, false⟩ = "L5-L5" ∧
    (⟨demoFileUri, 4, 99, true⟩ : SelectionInfo).isSingleLine = true ∧
    getLineAnchor ⟨demoFileUri, 4, 99, true⟩ = "L5" := by
  refine ⟨rfl, ?_, rfl, ?_⟩
  · rw [c10_anchor_single_line_flag.1 ⟨demoFileUri, 4, 4, false⟩ rfl]
    decide
  · rw [c10_anchor_single_line_flag.2 ⟨demoFileUri, 4, 99, true⟩ rfl]
    decide

theorem getLineAnchor_ne_empty (s : SelectionInfo) : getLineAnchor s ≠ "" := by
  unfold getLineAnchor
  split <;> intro h <;>
    (have h2 := congrArg String.data h; simp [String.data_append] at h2)

theorem map_slash_id : ∀ (l : List Char), (∀ c ∈ l, c ≠ '\\') →
    l.map (fun c => if c = '\\' then '/' else c) = l := by
  intro l
  induction l with
  | nil => intro _; rfl
  | cons a as ih =>
    intro h
    have ha : a ≠ '\\' := h a (by simp)
    simp [List.map_cons, if_neg ha, ih (fun c hc => h c (by simp [hc]))]

theorem joinSep_cons_ne (sep : String) (s : String) (rest : List String)
    (h : rest ≠ []) : joinSep sep (s :: rest) = s ++ sep ++ joinSep sep rest := by
  cases rest with
  | nil => exact absurd rfl h
  | cons b bs => rfl

theorem mem_joinSep : ∀ (sep : String) (l : List String) (c : Char),
    c ∈ (joinSep sep l).data → (∃ s ∈ l, c ∈ s.data) ∨ c ∈ sep.data := by
  intro sep l
  induction l with
  | nil => intro c hc; simp [joinSep] at hc
  | cons s rest ih =>
    intro c hc
    cases rest with
    | nil =>
      left
      exact ⟨s, by simp, by simpa [joinSep] using hc⟩
    | cons b bs =>
      rw [joinSep_cons_ne sep s (b :: bs) (by simp)] at hc
      simp only [String.data_append, List.mem_append] at hc
      rcases hc with (hc | hc) | hc
      · left; exact ⟨s, by simp, hc⟩
      · right; exact hc
      · rcases ih c hc with ⟨t, ht, hct⟩ | hc2
        · left; exact ⟨t, by simp [ht], hct⟩
        · right; exact hc2

theorem urlSafeChar_ne_backslash (c : Char) (h : urlSafeChar c = true) : c ≠ '\\' :=
  fun hEq => absurd (hEq ▸ h) (by decide)

theorem urlSafeSegment_chars (s : String) (h : urlSafeSegment s = true) :
    ∀ c ∈ s.data, c ≠ '\\' := by
  intro c hc
  unfold urlSafeSegment at h
  simp only [Bool.and_eq_true, List.all_eq_true] at h
  exact urlSafeChar_ne_backslash c (h.2 c hc)

theorem digitChar_ne_backslash (n : Nat) : Nat.digitChar n ≠ '\\' := by
  rcases Nat.lt_or_ge n 16 with h | h
  · interval_cases n <;> decide
  · unfold Nat.digitChar
    iterate 16 rw [if_neg (by omega)]
    decide

theorem toDigitsCore_ne_backslash : ∀ (fuel n : Nat) (ds : List Char),
    (∀ c ∈ ds, c ≠ '\\') → ∀ c ∈ Nat.toDigitsCore 10 fuel n ds, c ≠ '\\' := by
  intro fuel
  induction fuel with
  | zero => intro n ds h c hc; exact h c (by simpa [Nat.toDigitsCore] using hc)
  | succ f ih =>
    intro n ds h c hc
    have hstep : ∀ x ∈ Nat.digitChar (n % 10) :: ds, x ≠ '\\' := by
      intro x hx
      rcases List.mem_cons.mp hx with hx | hx
      · subst hx; exact digitChar_ne_backslash _
      · exact h x hx
    simp only [Nat.toDigitsCore] at hc
    by_cases hq : n / 10 = 0
    · rw [if_pos hq] at hc
      exact hstep c hc
    · rw [if_neg hq] at hc
      exact ih (n / 10) _ hstep c hc

theorem natToString_ne_backslash (n : Nat) : ∀ c ∈ (toString n).data, c ≠ '\\' := by
  intro c hc
  have hrepr : (toString n).data = Nat.toDigitsCore 10 (n + 1) n [] := rfl
  rw [hrepr] at hc
  exact toDigitsCore_ne_backslash (n + 1) n [] (by simp) c hc

theorem getLineAnchor_ne_backslash (s : SelectionInfo) :
    ∀ c ∈ (getLineAnchor s).data, c ≠ '\\' := by
  intro c hc
  unfold getLineAnchor at hc
  split at hc
  · simp only [String.data_append, List.mem_append] at hc
    rcases hc with hc | hc
    · simp at hc; subst hc; decide
    · exact natToString_ne_backslash _ c hc
  · simp only [String.data_append, List.mem_append] at hc
    rcases hc with ((hc | hc) | hc) | hc
    · simp at hc; subst hc; decide
    · exact natToString_ne_backslash _ c hc
    · simp at hc; rcases hc with rfl | rfl <;> decide
    · exact natToString_ne_backslash _ c hc

theorem setPathname_no_backslash (u : URL) (s : String) :
    ∀ c ∈ (URL.setPathname u s).pathname.data, c ≠ '\\' := by
  intro c hc
  have hc2 : c ∈ s.data.map (fun c => if c = '\\' then '/' else c) := hc
  rcases List.mem_map.mp hc2 with ⟨a, _, ha⟩
  by_cases h : a = '\\'
  · rw [if_pos h] at ha; rw [← ha]; decide
  · rw [if_neg h] at ha; rw [← ha]; exact h

theorem getLinkForSelection_ok (platform : Platform) (git : API) (sel : SelectionInfo)
    (info : RepositoryInfo) (hash : String)
    (h1 : getRepositoryInfo git sel.fileUri = Except.ok info)
    (h2 : failIfChangedFile info.state sel.fileUri = Except.ok ())
    (h3 : getCommitHash info.state = Except.ok hash) :
    getLinkForSelection platform git sel = Except.ok
      (URL.setHash
        (URL.setPathname ⟨"/", ""⟩
          ("/" ++ joinSep "/"
            ([info.organization, info.repository, "blob", hash] ++
              (splitOnChar platform.sep
                (platform.relative (platform.fsPath info.rootUri)
                  (platform.fsPath sel.fileUri)).data).map String.mk)))
        (getLineAnchor sel)) := by
  unfold getLinkForSelection
  simp only [h1, ok_bind, h2, h3]

theorem getLinkForSelection_ok_inv : ∀ (platform : Platform) (git : API)
    (sel : SelectionInfo) (url : URL),
    getLinkForSelection platform git sel = Except.ok url →
    ∃ s, url = URL.setHash (URL.setPathname ⟨"/", ""⟩ s) (getLineAnchor sel) := by
  intro platform git sel url h
  unfold getLinkForSelection at h
  rcases hI : getRepositoryInfo git sel.fileUri with e | info <;> rw [hI] at h
  · rw [error_bind] at h; cases h
  · rw [ok_bind] at h
    rcases hF : failIfChangedFile info.state sel.fileUri with e | u <;> rw [hF] at h
    · rw [error_bind] at h; cases h
    · rw [ok_bind] at h
      rcases hC : getCommitHash info.state with e | hash <;> rw [hC] at h
      · rw [error_bind] at h; cases h
      · rw [ok_bind] at h
        exact ⟨_, (Except.ok.inj h).symm⟩

/-- C1 counterexample: the code converts both zero-indexed lines to
one-indexed, so the multi-line selection startLine=4, endLine=9 of the
claim produces fragment `L5-L10`, not `L5-L9`. -/
theorem c1_counterexample :
    getLinkForSelection demoPlatform demoGit demoSelMulti =
      Except.ok ⟨"/foo/bar/blob/abc123/src/extension.ts", "L5-L10"⟩ ∧
    URL.toString ⟨"/foo/bar/blob/abc123/src/extension.ts", "L5-L10"⟩ =
      "https://github.com/foo/bar/blob/abc123/src/extension.ts#L5-L10" ∧
    ("https://github.com/foo/bar/blob/abc123/src/extension.ts#L5-L10" : String) ≠
      "https://github.com/foo/bar/blob/abc123/src/extension.ts#L5-L9" :=
  ⟨rfl, rfl, by decide⟩

/-- C1 amended: for a resolved repository with the given organization,
repository and HEAD hash, a clean tracked file whose root-relative path
splits into URL-safe segments, the resolver returns exactly
`https://github.com/<org>/<repo>/blob/<hash>/<segments>` with fragment
`#L<startLine+1>` for a single-line selection and
`#L<startLine+1>-L<endLine+1>` otherwise — so startLine=4 yields `L5` and
startLine=4, endLine=9 yields `L5-L10` (the claim's `L5-L9` corresponds to
endLine=8). -/
theorem c1_resolver_url : ∀ (platform : Platform) (git : API) (sel : SelectionInfo)
    (info : RepositoryInfo) (hash : String) (segs : List String),
    getRepositoryInfo git sel.fileUri = Except.ok info →
    failIfChangedFile info.state sel.fileUri = Except.ok () →
    getCommitHash info.state = Except.ok hash →
    (splitOnChar platform.sep
      (platform.relative (platform.fsPath info.rootUri)
        (platform.fsPath sel.fileUri)).data).map String.mk = segs →
    segs ≠ [] →
    urlSafeSegment info.organization = true →
    urlSafeSegment info.repository = true →
    urlSafeSegment hash = true →
    (∀ seg ∈ segs, urlSafeSegment seg = true) →
    ∃ url, getLinkForSelection platform git sel = Except.ok url ∧
      URL.toString url =
        "https://github.com/" ++ info.organization ++ "/" ++ info.repository ++
          "/blob/" ++ hash ++ "/" ++ joinSep "/" segs ++
          (if sel.isSingleLine then "#L" ++ toString (sel.startLine + 1)
           else "#L" ++ toString (sel.startLine + 1) ++ "-L" ++
             toString (sel.endLine + 1)) := by
  intro platform git sel info hash segs h1 h2 h3 h4 h5 hso hsr hsh hss
  have hok := getLinkForSelection_ok platform git sel info hash h1 h2 h3
  rw [h4] at hok
  refine ⟨_, hok, ?_⟩
  have hnb : ∀ c ∈ ("/" ++ joinSep "/"
      ([info.organization, info.repository, "blob", hash] ++ segs)).data, c ≠ '\\' := by
    intro c hc
    simp only [String.data_append, List.mem_append] at hc
    rcases hc with hc | hc
    · have hslash : ∀ x ∈ ("/" : String).data, x ≠ '\\' := by decide
      exact hslash c hc
    · rcases mem_joinSep "/" _ c hc with ⟨t, ht, hct⟩ | hc2
      · rcases List.mem_append.mp ht with ht | ht
        · simp only [List.mem_cons, List.not_mem_nil, or_false] at ht
          rcases ht with rfl | rfl | rfl | rfl
          · exact urlSafeSegment_chars _ hso c hct
          · exact urlSafeSegment_chars _ hsr c hct
          · have hblob : ∀ x ∈ ("blob" : String).data, x ≠ '\\' := by decide
            exact hblob c hct
          · exact urlSafeSegment_chars _ hsh c hct
        · exact urlSafeSegment_chars _ (hss t ht) c hct
      · have hslash : ∀ x ∈ ("/" : String).data, x ≠ '\\' := by decide
        exact hslash c hc2
  have hide : URL.setPathname ⟨"/", ""⟩ ("/" ++ joinSep "/"
      ([info.organization, info.repository, "blob", hash] ++ segs)) =
      (⟨"/" ++ joinSep "/" ([info.organization, info.repository, "blob", hash] ++ segs),
        ""⟩ : URL) := by
    unfold URL.setPathname
    exact congrArg (fun p => URL.mk p "") (string_eq_of_data (map_slash_id _ hnb))
  rw [hide]
  show "https://github.com" ++
      ("/" ++ joinSep "/" ([info.organization, info.repository, "blob", hash] ++ segs)) ++
      (if getLineAnchor sel = "" then "" else "#" ++ getLineAnchor sel) = _
  rw [if_neg (getLineAnchor_ne_empty sel)]
  have hj : joinSep "/" ([info.organization, info.repository, "blob", hash] ++ segs) =
      info.organization ++ "/" ++ (info.repository ++ "/" ++ ("blob" ++ "/" ++
        (hash ++ "/" ++ joinSep "/" segs))) := by
    show joinSep "/" (info.organization :: info.repository :: "blob" :: hash :: segs) = _
    rw [joinSep_cons_ne "/" info.organization _ (by simp),
      joinSep_cons_ne "/" info.repository _ (by simp),
      joinSep_cons_ne "/" "blob" _ (by simp),
      joinSep_cons_ne "/" hash _ h5]
  have hanch : ("#" : String) ++ getLineAnchor sel =
      (if sel.isSingleLine then "#L" ++ toString (sel.startLine + 1)
       else "#L" ++ toString (sel.startLine + 1) ++ "-L" ++
         toString (sel.endLine + 1)) := by
    by_cases hs1 : sel.isSingleLine
    · unfold getLineAnchor
      rw [if_pos hs1, if_pos hs1]
      exact rfl
    · unfold getLineAnchor
      rw [if_neg hs1, if_neg hs1]
      exact rfl
  rw [hj, hanch]
  apply string_eq_of_data
  by_cases hs1 : sel.isSingleLine <;>
    simp [hs1, String.data_append, List.append_assoc]

/-- Witness for C1 amended, at the demo repository: the single-line
selection on line 4 (zero-indexed) yields
`https://github.com/foo/bar/blob/abc123/src/extension.ts#L5`. -/
theorem c1_witness :
    getRepositoryInfo demoGit demoSel.fileUri =
      Except.ok ⟨"foo", "bar", demoRootUri, demoState⟩ ∧
    getCommitHash demoState = Except.ok "abc123" ∧
    (∃ url, getLinkForSelection demoPlatform demoGit demoSel = Except.ok url ∧
      URL.toString url =
        "https://github.com/" ++ "foo" ++ "/" ++ "bar" ++ "/blob/" ++ "abc123" ++ "/" ++
          joinSep "/" ["src", "extension.ts"] ++
          (if demoSel.isSingleLine then "#L" ++ toString (demoSel.startLine + 1)
           else "#L" ++ toString (demoSel.startLine + 1) ++ "-L" ++
             toString (demoSel.endLine + 1))) ∧
    getLinkForSelection demoPlatform demoGit demoSel =
      Except.ok ⟨"/foo/bar/blob/abc123/src/extension.ts", "L5"⟩ := by
  refine ⟨rfl, rfl, ?_, rfl⟩
  exact c1_resolver_url demoPlatform demoGit demoSel ⟨"foo", "bar", demoRootUri, demoState⟩
    "abc123" ["src", "extension.ts"] rfl rfl rfl rfl (by decide) (by decide) (by decide)
    (by decide) (by decide)

/-- C8: every URL the resolver produces is free of backslashes — the
relative path is split on the platform separator, the tokens are joined
with `/`, and the URL path parser turns any remaining `\` into `/` — so
Windows-style separators always render as forward slashes. -/
theorem c8_forward_slashes : ∀ (platform : Platform) (git : API) (sel : SelectionInfo)
    (url : URL), getLinkForSelection platform git sel = Except.ok url →
    ∀ c ∈ (URL.toString url).data, c ≠ '\\' := by
  intro platform git sel url h c hc
  obtain ⟨s, rfl⟩ := getLinkForSelection_ok_inv platform git sel url h
  have hpath := setPathname_no_backslash ⟨"/", ""⟩ s
  have hc2 : c ∈ ("https://github.com" ++ (URL.setPathname ⟨"/", ""⟩ s).pathname ++
      (if getLineAnchor sel = "" then "" else "#" ++ getLineAnchor sel)).data := hc
  rw [if_neg (getLineAnchor_ne_empty sel)] at hc2
  simp only [String.data_append, List.mem_append] at hc2
  rcases hc2 with (hc2 | hc2) | hc2
  · have hlit : ∀ x ∈ ("https://github.com" : String).data, x ≠ '\\' := by decide
    exact hlit c hc2
  · exact hpath c hc2
  · rcases hc2 with hc2 | hc2
    · have hlit : ∀ x ∈ ("#" : String).data, x ≠ '\\' := by decide
      exact hlit c hc2
    · exact getLineAnchor_ne_backslash sel c hc2

/-- Witness for C8: on the Windows-flavoured platform, where
`path.relative` yields `src\extension.ts` and `path.sep` is `\`, the
produced URL is `.../src/extension.ts#L1` with no backslash. -/
theorem c8_witness :
    winPlatform.sep = '\\' ∧
    winPlatform.relative (winPlatform.fsPath demoRootUri)
      (winPlatform.fsPath demoFileUri) = "src\\extension.ts" ∧
    getLinkForSelection winPlatform demoGit ⟨demoFileUri, 0, 0, true⟩ =
      Except.ok ⟨"/foo/bar/blob/abc123/src/extension.ts", "L1"⟩ ∧
    URL.toString ⟨"/foo/bar/blob/abc123/src/extension.ts", "L1"⟩ =
      "https://github.com/foo/bar/blob/abc123/src/extension.ts#L1" ∧
    (∀ c ∈ (URL.toString
      (⟨"/foo/bar/blob/abc123/src/extension.ts", "L1"⟩ : URL)).data, c ≠ '\\') := by
  refine ⟨rfl, rfl, rfl, rfl, ?_⟩
  exact c8_forward_slashes winPlatform demoGit ⟨demoFileUri, 0, 0, true⟩ _ rfl

end GetPermalink
